import Mathlib

/-!
Shallow embedding of the reactive core of a Solid-style reactivity library
(dependency tracker, signal source, memo, effect, batch scheduler, structural
store, keyed list reconciler), together with proofs of the spec's testable
properties.  Computations, subscribers and signals are identified by natural
numbers; JavaScript `Set`s are modelled as insertion-ordered duplicate-free
lists, and JavaScript exceptions as an explicit boolean / `Except` value.
-/

namespace Reactive

/-- Identifier of a subscribable source, a subscriber callback, or a signal. -/
abbrev SubId := Nat

/-- JS `Set.add`: append an element unless it is already present.  Keeps
insertion order, never creates duplicates. -/
def setInsert (s : List SubId) (d : SubId) : List SubId :=
  if d ∈ s then s else s ++ [d]

/-- Repeated `Set.add` over a list of elements. -/
def setInsertAll (s : List SubId) (ds : List SubId) : List SubId :=
  ds.foldl setInsert s

/-- `DependencyTracker.reconcileSubscriptions`: the first loop drops (and
unsubscribes) every subscription that is not in `nextDeps`; the second loop
walks `nextDeps` and subscribes each dependency that is not yet in the map.
The subscription map is modelled by its (insertion-ordered) key list. -/
def reconcileSubscriptions (subs : List SubId) (nextDeps : List SubId) : List SubId :=
  setInsertAll (subs.filter (fun d => nextDeps.contains d)) nextDeps

/-- The unsubscribe calls made by the first loop of `reconcileSubscriptions`:
previously subscribed dependencies that were not read this run. -/
def reconcileRemoved (subs : List SubId) (nextDeps : List SubId) : List SubId :=
  subs.filter (fun d => !nextDeps.contains d)

/-- `DependencyTracker.collect fn`: the working set is rebuilt from scratch
from the `addDependency` calls performed by `fn` (listed in `adds`), and
reconciliation runs in the `finally`, i.e. on both the normal-return path and
the exception path; `throws` records which path `fn` took and the result shows
it plays no role in the reconciled subscription map. -/
def collect (subs : List SubId) (adds : List SubId) (throws : Bool) : List SubId :=
  let collecting := setInsertAll [] adds
  reconcileSubscriptions subs collecting

/-- The reactive system restricted to one tracked computation (memo or
effect) over integer-valued signals: `values` holds every signal's current
value, `subs` is the computation's tracker subscription map (key list),
`runCount` counts its collect-runs, `depth` is the global batch depth, and
`pending` says whether the computation's notification callback sits in the
global pending-subscriber set.  A memo's callback recomputes directly and an
idle effect's callback executes directly, so at batch depth zero either kind
performs exactly one collect-run per notification. -/
structure CompSt where
  values : Nat → Int
  subs : List SubId
  runCount : Nat
  depth : Nat
  pending : Bool

/-- One collect-run of the computation: the body's reads are given by
`readsOf` applied to the current signal values, and the tracker reconciles
its subscriptions against exactly those reads (`DependencyTracker.collect`). -/
def runComputation (readsOf : (Nat → Int) → List SubId) (st : CompSt) : CompSt :=
  { st with
      runCount := st.runCount + 1
      subs := collect st.subs (readsOf st.values) false }

/-- `notifySubscriber` applied to the computation's callback: queued while a
batch is open, run synchronously otherwise. -/
def notifyComputation (readsOf : (Nat → Int) → List SubId) (st : CompSt) : CompSt :=
  if 0 < st.depth then { st with pending := true } else runComputation readsOf st

/-- `SignalSource.set` with a plain value: install the value, then — only if
it differs from the previous value — notify the signal's subscribers (here:
the computation's callback, present exactly when the tracker subscribed). -/
def setSignal (readsOf : (Nat → Int) → List SubId) (st : CompSt) (s : SubId) (v : Int) :
    CompSt :=
  let previous := st.values s
  let st' := { st with values := Function.update st.values s v }
  if v = previous then st'
  else if s ∈ st'.subs then notifyComputation readsOf st' else st'

/-- One pass of `flushSubscribers` for the single queued callback; the
computation's body only reads, so the pending set cannot refill and one pass
is the whole loop. -/
def flushPending (readsOf : (Nat → Int) → List SubId) (st : CompSt) : CompSt :=
  if st.pending then runComputation readsOf { st with pending := false } else st

/-- `batch` around a sequence of signal writes: bump the depth, run the
writes, drop the depth, and flush pending subscribers only when the
outermost batch exits. -/
def batchWrites (readsOf : (Nat → Int) → List SubId) (ws : List (SubId × Int))
    (st : CompSt) : CompSt :=
  let st1 : CompSt := { st with depth := st.depth + 1 }
  let st2 := ws.foldl (fun acc w => setSignal readsOf acc w.1 w.2) st1
  let st3 : CompSt := { st2 with depth := st2.depth - 1 }
  if st3.depth = 0 then flushPending readsOf st3 else st3

/-- A signal source in isolation: its current value and its subscriber set
(a JS `Set` of callbacks, hence duplicate-free in any reachable state). -/
structure Sig (α : Type) where
  value : α
  subscribers : List SubId

/-- Resolution of `SignalSource.set`'s argument: a function argument is
invoked with the previous value, a plain argument is the next value itself. -/
def sigResolve {α : Type} (next : α ⊕ (α → α)) (previous : α) : α :=
  match next with
  | Sum.inl v => v
  | Sum.inr f => f previous

/-- `SignalSource.set`: resolve the argument against the previous value,
install the resolved value, and — only when the resolved value is not
`Object.is`-identical to the previous one — call `notifySubscriber` once per
current subscriber.  `Object.is` on the modelled values is plain equality.
Returns the resolved value (the method's return value), the updated signal,
and the list of `notifySubscriber` calls made. -/
def sigSet {α : Type} [DecidableEq α] (sig : Sig α) (next : α ⊕ (α → α)) :
    α × Sig α × List SubId :=
  let resolved := sigResolve next sig.value
  (resolved, { sig with value := resolved },
    if resolved = sig.value then [] else sig.subscribers)

/-- The global collector stack; each entry is one tracker's working set and
the head of the list is the innermost (top) collector. -/
abbrev CollStack := List (List SubId)

/-- `trackDependency`: insert the read source into the working set of the
collector on top of the stack; a read with no active collector is a no-op. -/
def trackDep : CollStack → SubId → CollStack
  | [], _ => []
  | c :: rest, dep => setInsert c dep :: rest

/-- `untrack(fn)`: pop the innermost collector, run `fn` — modelled by the
list of tracked reads it performs — against the remaining stack, and push the
popped collector back in the `finally` (only when the stack was nonempty). -/
def untrackRun (cs : CollStack) (reads : List SubId) : CollStack :=
  match cs with
  | [] => reads.foldl trackDep []
  | top :: rest => top :: reads.foldl trackDep rest

/-- Programs run against one signal in the batch-scheduler model: a write of
a value to the signal, sequencing, a nested `batch(...)` call, or nothing. -/
inductive BProg where
  | write (v : Int)
  | seq (p q : BProg)
  | batch (p : BProg)
  | skip

/-- Scheduler state for the batch model: the signal's current value, the
global `batchDepth`, the global `pendingSubscribers` set, and the log of
subscriber-callback invocations performed so far (the subscriber callbacks
in this model only record that they ran). -/
structure BSt where
  value : Int
  depth : Nat
  pending : List SubId
  log : List SubId

/-- `notifySubscriber`: while a batch is open, add the callback to the
pending set (a JS `Set`, so duplicates coalesce); otherwise invoke it
immediately. -/
def notifySub (st : BSt) (c : SubId) : BSt :=
  if 0 < st.depth then { st with pending := setInsert st.pending c }
  else { st with log := st.log ++ [c] }

/-- `flushSubscribers`: repeatedly snapshot the pending set, clear it, and
invoke every snapshotted callback, until the pending set is empty. -/
def flushSubs (st : BSt) : BSt :=
  if h : st.pending = [] then st
  else flushSubs { st with log := st.log ++ st.pending, pending := [] }
termination_by st.pending.length
decreasing_by
  simp only [List.length_nil]
  exact List.length_pos.mpr h

/-- Interpret a program against the scheduler; `subs` is the written
signal's subscriber set.  `SignalSource.set` installs the value and, only
when it changed, notifies every subscriber; `batch` bumps the depth, runs
the body, drops the depth, and flushes only when the outermost batch
exits. -/
def runB (subs : List SubId) : BProg → BSt → BSt
  | .write v, st =>
    let st' : BSt := { st with value := v }
    if v = st.value then st' else subs.foldl notifySub st'
  | .seq p q, st => runB subs q (runB subs p st)
  | .batch p, st =>
    let st1 : BSt := { st with depth := st.depth + 1 }
    let st2 := runB subs p st1
    let st3 : BSt := { st2 with depth := st2.depth - 1 }
    if st3.depth = 0 then flushSubs st3 else st3
  | .skip, st => st

/-- The signal value after running `p` from value `v` (writes apply in
program order). -/
def endVal : Int → BProg → Int
  | _, .write w => w
  | v, .seq p q => endVal (endVal v p) q
  | v, .batch p => endVal v p
  | v, .skip => v

/-- Every write in `p` is value-changing when execution starts from value
`v`. -/
def allChangingB : Int → BProg → Bool
  | v, .write w => w != v
  | v, .seq p q => allChangingB v p && allChangingB (endVal v p) q
  | v, .batch p => allChangingB v p
  | _, .skip => true

/-- Whether `p` contains at least one write. -/
def hasWriteB : BProg → Bool
  | .write _ => true
  | .seq p q => hasWriteB p || hasWriteB q
  | .batch p => hasWriteB p
  | .skip => false

/-- `EffectComputation` control state: the `scheduled`, `running` and
`disposed` flags plus a counter of completed body executions. -/
structure Eff where
  scheduled : Bool
  running : Bool
  disposed : Bool
  runs : Nat

/-- The part of `EffectComputation.schedule` exercised by a notification
arriving while the effect body is executing: disposed → no-op; running →
set `scheduled` and return (coalesce).  Every mid-run notification hits the
`running` branch; the remaining fall-through to `execute` is unreachable
there and is modelled as leaving the state unchanged. -/
def scheduleFlag (e : Eff) : Eff :=
  if e.disposed then e
  else if e.running then { e with scheduled := true }
  else e

/-- Apply `f` to `a`, `n` times. -/
def applyN {α : Type} (f : α → α) : Nat → α → α
  | 0, a => a
  | n + 1, a => applyN f n (f a)

/-- `EffectComputation.execute`, with the effect body abstracted by the
notifications it receives: `notifs` lists, per run, how many dependency
notifications arrive while that run's body is executing (each one goes
through `schedule`, i.e. `scheduleFlag`, since `running` is set).  After the
body, `running` clears, and a set `scheduled` flag triggers one immediate
re-execution — a loop over the remaining `notifs`, not unbounded
recursion. -/
def executeEff : Eff → List Nat → Eff
  | e, [] =>
    if e.disposed then e
    else
      let e1 : Eff := { e with running := true, scheduled := false, runs := e.runs + 1 }
      { e1 with running := false }
  | e, k :: rest =>
    if e.disposed then e
    else
      let e1 : Eff := { e with running := true, scheduled := false, runs := e.runs + 1 }
      let e2 := applyN scheduleFlag k e1
      let e3 : Eff := { e2 with running := false }
      if e3.scheduled then executeEff e3 rest else e3

/-- `EffectComputation.schedule` (and `start`): disposed → no-op; running →
coalesce by setting `scheduled`; otherwise execute synchronously. -/
def scheduleEff (e : Eff) (notifs : List Nat) : Eff :=
  if e.disposed then e
  else if e.running then { e with scheduled := true }
  else executeEff e notifs

/-- Memo-and-one-signal system state: the dependency signal's current value
`x`, the memo's `hasValue` flag and cached `value`, whether the memo's
tracker is subscribed to the signal (`subbed`), the global batch depth, and
whether the memo's invalidation callback sits in the global
pending-subscriber set (`pendingCb`). -/
structure MSt where
  x : Int
  hasValue : Bool
  value : Int
  subbed : Bool
  depth : Nat
  pendingCb : Bool

/-- `MemoSource.recompute` for a memo whose compute function reads the
signal: `tracker.collect(compute)` evaluates `compute` at the signal's
current value, caches it, sets `hasValue`, and reconciles the tracker onto
the signal (subscribing the memo's callback); the `computing` guard plays no
role here because the body performs no nested invalidation. -/
def recomputeM (compute : Int → Int) (st : MSt) : MSt :=
  { st with value := compute st.x, hasValue := true, subbed := true }

/-- `MemoSource.get`: register the memo with the collector on top of the
global stack (`trackDependency(this)`), recompute only when no value has
ever been computed, and return the cached value. -/
def memoGetM (compute : Int → Int) (memoId : SubId) (cs : CollStack) (st : MSt) :
    Int × MSt × CollStack :=
  let cs' := trackDep cs memoId
  if st.hasValue then (st.value, st, cs')
  else
    let st' := recomputeM compute st
    (st'.value, st', cs')

/-- `SignalSource.set` on the memo's dependency signal: install the value
and, when it changed and the memo is subscribed, notify the memo's tracker
callback — queued in the pending set while a batch is open, an immediate
`recompute` otherwise. -/
def setXM (compute : Int → Int) (st : MSt) (v : Int) : MSt :=
  let st1 : MSt := { st with x := v }
  if v = st.x then st1
  else if st.subbed then
    (if 0 < st1.depth then { st1 with pendingCb := true } else recomputeM compute st1)
  else st1

/-- `batch` entry: bump the global depth. -/
def batchEnterM (st : MSt) : MSt := { st with depth := st.depth + 1 }

/-- `batch` exit: drop the depth and, when the outermost batch exits with
the memo's callback queued, flush — the pending set is snapshotted and
cleared, then the queued callback recomputes the memo. -/
def batchExitM (compute : Int → Int) (st : MSt) : MSt :=
  let st1 : MSt := { st with depth := st.depth - 1 }
  if st1.depth = 0 ∧ st1.pendingCb then
    recomputeM compute { st1 with pendingCb := false }
  else st1

/-- The spec's memo-scenario compute function: the memo doubles the signal. -/
def dbl : Int → Int := fun n => 2 * n

/-- `splice(i, 1)`: remove the element at index `i`. -/
def removeAt {α : Type} (l : List α) (i : Nat) : List α :=
  l.take i ++ l.drop (i + 1)

/-- `splice(i, 0, a)`: insert `a` at index `i`. -/
def insertAt {α : Type} (l : List α) (i : Nat) (a : α) : List α :=
  l.take i ++ a :: l.drop i

/-- Tail of the reconciler's forward scan: the first position `≥ pos` whose
key equals `k`, where the list argument is the keys from `pos` on. -/
def scanList {K : Type} [DecidableEq K] (k : K) : List K → Nat → Option Nat
  | [], _ => none
  | x :: rest, pos => if x = k then some pos else scanList k rest (pos + 1)

/-- The reconciler's `for (cursor = index + 1; cursor < keys.length; ...)`
scan: first index at or after `start` holding key `k` (`Object.is`
comparison on keys). -/
def scanForward {K : Type} [DecidableEq K] (keys : List K) (k : K) (start : Nat) :
    Option Nat :=
  scanList k (keys.drop start) start

/-- `options.update`, when present, updates the projected item in place at
index `i`; an absent update function leaves the target untouched. -/
def applyUpdate {S P : Type} [Inhabited P] (updateFn : Option (P → S → Nat → P))
    (target : List P) (item : S) (i : Nat) : List P :=
  match updateFn with
  | none => target
  | some u => target.set i (u (target.getD i default) item i)

/-- The index loop of `createArrayProjection`'s mutate step, walking the new
source list left to right with absolute index `i`: key match in place →
in-place update; key found further right → splice it out, re-splice it at
`i` (a move), update; no match → synthesize a new projected item with the
map function (counted in `calls`) and splice it in at `i`.  `keyFn item i`
is the upfront `nextKeys[i]`; `getD` mirrors JS indexing, and the moved key
slot always holds `nextKey` itself (that is what the scan found). -/
def projLoop {S K P : Type} [DecidableEq K] [Inhabited P] (keyFn : S → Nat → K)
    (mapFn : S → Nat → P) (updateFn : Option (P → S → Nat → P)) :
    Nat → List S → List K → List P → Nat → List K × List P × Nat
  | _, [], keys, target, calls => (keys, target, calls)
  | i, item :: restNext, keys, target, calls =>
    let nextKey := keyFn item i
    if keys[i]? = some nextKey then
      projLoop keyFn mapFn updateFn (i + 1) restNext keys
        (applyUpdate updateFn target item i) calls
    else
      match scanForward keys nextKey (i + 1) with
      | some foundIndex =>
        let movedItem := target.getD foundIndex default
        let movedKey := keys.getD foundIndex nextKey
        let keys1 := insertAt (removeAt keys foundIndex) i movedKey
        let target1 := insertAt (removeAt target foundIndex) i movedItem
        projLoop keyFn mapFn updateFn (i + 1) restNext keys1
          (applyUpdate updateFn target1 item i) calls
      | none =>
        projLoop keyFn mapFn updateFn (i + 1) restNext
          (insertAt keys i nextKey) (insertAt target i (mapFn item i)) (calls + 1)

/-- One full mutate step of the keyed reconciler: run the index loop from
`i = 0`, then truncate trailing entries beyond the new length (the source's
two `pop` loops), reporting the updated key list, the updated projected
list, and how many times the map function ran. -/
def reconcileKeyed {S K P : Type} [DecidableEq K] [Inhabited P] (keyFn : S → Nat → K)
    (mapFn : S → Nat → P) (updateFn : Option (P → S → Nat → P)) (next : List S)
    (keys : List K) (target : List P) : List K × List P × Nat :=
  let r := projLoop keyFn mapFn updateFn 0 next keys target 0
  (r.1.take next.length, r.2.1.take next.length, r.2.2)

/-- A JavaScript value inside the structural store, restricted to the shapes
the claims under study exercise: an integer primitive or a plain object with
string keys in insertion order. -/
inductive JVal where
  | prim (n : Int)
  | obj (fields : List (String × JVal))

/-- `isObjectLike`. -/
def isObjLike : JVal → Bool
  | .prim _ => false
  | .obj _ => true

/-- The own enumerable fields of a value (a primitive has none). -/
def objFields : JVal → List (String × JVal)
  | .prim _ => []
  | .obj fs => fs

/-- JS property assignment on a field list: an existing key is overwritten
in place, a new key is appended. -/
def setField (fs : List (String × JVal)) (k : String) (v : JVal) :
    List (String × JVal) :=
  if (fs.map Prod.fst).contains k then
    fs.map (fun kv => if kv.1 = k then (k, v) else kv)
  else fs ++ [(k, v)]

/-- `getAtPath`: walk the path, returning `none` (JS `undefined`) as soon as
the cursor stops being object-like or a segment is missing. -/
def getAtPath : JVal → List String → Option JVal
  | v, [] => some v
  | .prim _, _ :: _ => none
  | .obj fs, k :: rest =>
    match fs.lookup k with
    | some v => getAtPath v rest
    | none => none

/-- `setAtPath`: shallow-clone along the path and install the value;
a non-object current node on the path is replaced by a fresh `{}` container
(string segments take the object branch of the source's ternary; the
primitive-root case is unreachable from store roots, which are objects, and
is modelled as an empty container). -/
def setAtPath : JVal → List String → JVal → JVal
  | _, [], v => v
  | root, k :: rest, v =>
    let fs := objFields root
    let child : JVal :=
      match fs.lookup k with
      | some cv => if isObjLike cv then cv else .obj []
      | none => .obj []
    let newChild : JVal :=
      match rest with
      | [] => v
      | _ :: _ => setAtPath child rest v
    .obj (setField fs k newChild)

/-- Store-level state seen by a proxy trap: the reference identity of the
root held by the underlying signal, the root value, and how many
`notifySubscriber` calls the signal has made so far. -/
structure StoreSt where
  rootRef : Nat
  root : JVal
  notifications : Nat

/-- The diagnostic thrown by the write traps of an immutable store view. -/
def immutableStoreError : String :=
  "Cannot mutate immutable store. Use setStore instead."

/-- The proxy `set` trap at view path `path` for property `prop`: an
immutable store throws before touching the signal; a mutable store installs
a copy-on-write path-set of the root — a freshly allocated object
(`freshRef`), so the signal's `Object.is` check fires a notification.
Returns the thrown error or unit, paired with the resulting store state. -/
def proxySetTrap (mutable : Bool) (st : StoreSt) (path : List String)
    (prop : String) (v : JVal) (freshRef : Nat) : Except String Unit × StoreSt :=
  if mutable = false then (Except.error immutableStoreError, st)
  else
    (Except.ok (),
      { rootRef := freshRef
        root := setAtPath st.root (path ++ [prop]) v
        notifications := st.notifications + (if freshRef = st.rootRef then 0 else 1) })

/-- The proxy `deleteProperty` trap: an immutable store throws before
touching the signal; a mutable store deletes from a shallow clone of the
node and path-sets it back (a no-op returning success when the node is not
object-like). -/
def proxyDeleteTrap (mutable : Bool) (st : StoreSt) (path : List String)
    (prop : String) (freshRef : Nat) : Except String Unit × StoreSt :=
  if mutable = false then (Except.error immutableStoreError, st)
  else
    match getAtPath st.root path with
    | some node =>
      if isObjLike node then
        (Except.ok (),
          { rootRef := freshRef
            root := setAtPath st.root path
              (JVal.obj ((objFields node).filter (fun kv => kv.1 != prop)))
            notifications := st.notifications + (if freshRef = st.rootRef then 0 else 1) })
      else (Except.ok (), st)
    | none => (Except.ok (), st)

/-- A JS value together with its reference identity: two objects are
`Object.is`-identical exactly when their references coincide, two
primitives exactly when their numeric values coincide. -/
structure RVal where
  ref : Nat
  val : JVal

/-- `Object.is` at the store root. -/
def jsIs (x y : RVal) : Bool :=
  match x.val, y.val with
  | .prim n, .prim m => n == m
  | .obj _, .obj _ => x.ref == y.ref
  | _, _ => false

/-- JS object spread `{...p, ...r}`: start from the fields of `p` and assign
each field of `r` in order. -/
def spreadMerge (p r : List (String × JVal)) : List (String × JVal) :=
  r.foldl (fun acc kv => setField acc kv.1 kv.2) p

/-- The store's root signal: current root (with identity) and subscribers. -/
structure SigR where
  value : RVal
  subscribers : List SubId

/-- `SignalSource.set` on the store root: install the resolved root and
notify every subscriber unless the new root is `Object.is`-identical to the
previous one.  Returns the resolved root, the updated signal, and the
`notifySubscriber` calls made. -/
def sigSetR (sig : SigR) (resolved : RVal) : RVal × SigR × List SubId :=
  (resolved, { sig with value := resolved },
    if jsIs sig.value resolved then [] else sig.subscribers)

/-- Resolution of `setStore`'s argument: an updater function is applied to
the previous root; a plain object (full replacement or partial patch) is
taken as is. -/
def resolveStoreArg (next : RVal ⊕ (RVal → RVal)) (previous : RVal) : RVal :=
  match next with
  | Sum.inl v => v
  | Sum.inr f => f previous

/-- The setter returned by `createStore`: resolve the argument against the
previous root; when both the previous root and the resolved value are
object-like, install a fresh object (`freshRef` stands for the spread
literal's new allocation, whose reference differs from every live object)
holding the top-level spread of previous fields then resolved fields;
otherwise install the resolved value as is.  Finishes through the root
signal's `set`. -/
def setStoreF (sig : SigR) (next : RVal ⊕ (RVal → RVal)) (freshRef : Nat) :
    RVal × SigR × List SubId :=
  let previous := sig.value
  let resolved := resolveStoreArg next previous
  let merged : RVal :=
    if isObjLike previous.val && isObjLike resolved.val then
      ⟨freshRef, JVal.obj (spreadMerge (objFields previous.val) (objFields resolved.val))⟩
    else resolved
  sigSetR sig merged

end Reactive

namespace Reactive

theorem mem_setInsert (s : List SubId) (d x : SubId) :
    x ∈ setInsert s d ↔ x ∈ s ∨ x = d := by
  unfold setInsert
  by_cases h : d ∈ s
  · simp only [if_pos h]
    constructor
    · exact Or.inl
    · rintro (hx | rfl)
      · exact hx
      · exact h
  · simp [if_neg h]

theorem mem_setInsertAll (ds : List SubId) (s : List SubId) (x : SubId) :
    x ∈ setInsertAll s ds ↔ x ∈ s ∨ x ∈ ds := by
  induction ds generalizing s with
  | nil => simp [setInsertAll]
  | cons d t ih =>
    show x ∈ setInsertAll (setInsert s d) t ↔ _
    rw [ih, mem_setInsert]
    simp only [List.mem_cons]
    tauto

theorem mem_reconcileSubscriptions (subs nextDeps : List SubId) (x : SubId) :
    x ∈ reconcileSubscriptions subs nextDeps ↔ x ∈ nextDeps := by
  unfold reconcileSubscriptions
  rw [mem_setInsertAll]
  constructor
  · rintro (hx | hx)
    · have := List.of_mem_filter hx
      simpa using this
    · exact hx
  · exact Or.inr

/-- C2: after `collect(fn)` completes — whether `fn` returned normally or
threw — the tracker's subscription map contains exactly the subscribables
read during that run: membership in the reconciled map coincides with
membership in the run's read list, the dependencies torn down are exactly
those previously subscribed but not read this run, and the exception path
produces the same reconciled map as the normal path. -/
theorem collect_reconciles_exactly (subs adds : List SubId) (throws : Bool) (d : SubId) :
    (d ∈ collect subs adds throws ↔ d ∈ adds) ∧
    (d ∈ reconcileRemoved subs (setInsertAll [] adds) ↔ d ∈ subs ∧ d ∉ adds) ∧
    collect subs adds true = collect subs adds false := by
  refine ⟨?_, ?_, rfl⟩
  · unfold collect
    rw [mem_reconcileSubscriptions, mem_setInsertAll]
    simp
  · unfold reconcileRemoved
    rw [List.mem_filter]
    have hm : ∀ x : SubId, x ∈ setInsertAll [] adds ↔ x ∈ adds := by
      intro x
      rw [mem_setInsertAll]
      simp
    constructor
    · rintro ⟨hs, hc⟩
      refine ⟨hs, fun hd => ?_⟩
      rw [← hm d] at hd
      simp [hd] at hc
    · rintro ⟨hs, hd⟩
      refine ⟨hs, ?_⟩
      rw [← hm d] at hd
      simp [hd]

theorem runComputation_values (readsOf : (Nat → Int) → List SubId) (st : CompSt) :
    (runComputation readsOf st).values = st.values ∧
    (runComputation readsOf st).depth = st.depth ∧
    (runComputation readsOf st).pending = st.pending ∧
    (runComputation readsOf st).runCount = st.runCount + 1 := by
  simp [runComputation]

theorem foldl_setSignal_in_batch (readsOf : (Nat → Int) → List SubId) (s : SubId)
    (vs : List Int) (st : CompSt) (hdep : 0 < st.depth) (hs : s ∈ st.subs)
    (hchain : List.Chain' (fun a b => a ≠ b) (st.values s :: vs)) :
    ((vs.map (fun v => (s, v))).foldl (fun acc w => setSignal readsOf acc w.1 w.2) st).runCount
        = st.runCount ∧
    ((vs.map (fun v => (s, v))).foldl (fun acc w => setSignal readsOf acc w.1 w.2) st).subs
        = st.subs ∧
    ((vs.map (fun v => (s, v))).foldl (fun acc w => setSignal readsOf acc w.1 w.2) st).depth
        = st.depth ∧
    (((vs.map (fun v => (s, v))).foldl (fun acc w => setSignal readsOf acc w.1 w.2) st).pending
        = true ↔ (st.pending = true ∨ vs ≠ [])) := by
  induction vs generalizing st with
  | nil => simp
  | cons v t ih =>
    have hne : st.values s ≠ v := (List.chain'_cons.mp hchain).1
    have hstep :
        setSignal readsOf st s v
          = { st with values := Function.update st.values s v, pending := true } := by
      unfold setSignal notifyComputation
      rw [if_neg (Ne.symm hne)]
      have hsub : s ∈ ({ st with values := Function.update st.values s v } : CompSt).subs := hs
      rw [if_pos hsub, if_pos hdep]
    set st1 : CompSt := { st with values := Function.update st.values s v, pending := true }
      with hst1
    have hch1 : List.Chain' (fun a b => a ≠ b) (st1.values s :: t) := by
      have : st1.values s = v := by
        simp [hst1, Function.update_same]
      rw [this]
      exact (List.chain'_cons.mp hchain).2
    have ih' := ih st1 (by simp [hst1]; omega) hs hch1
    simp only [List.map_cons, List.foldl_cons, hstep, ← hst1]
    refine ⟨ih'.1, by simp [ih'.2.1, hst1], by simp [ih'.2.2.1, hst1], ?_⟩
    rw [ih'.2.2.2]
    simp [hst1]

/-- C1: dependency precision.  Take a computation whose tracker subscription
map reflects the reads of its most recent run (`hsubs`, the reconciliation
invariant), outside any batch and with nothing pending.  A value-changing
write to a signal the last run did not read leaves the run count unchanged; a
value-changing write to a signal it did read triggers exactly one re-run; and
any nonempty sequence of value-changing writes to a read signal inside one
batch coalesces to exactly one re-run at the outermost batch exit, leaving
nothing pending. -/
theorem dependency_precision (readsOf : (Nat → Int) → List SubId)
    (st : CompSt) (lastReads : List SubId) (s : SubId) (w : Int) (vs : List Int)
    (hsubs : ∀ d, d ∈ st.subs ↔ d ∈ lastReads)
    (hdepth : st.depth = 0) (hpend : st.pending = false)
    (hw : w ≠ st.values s) (hvs : vs ≠ [])
    (hchain : List.Chain' (fun a b => a ≠ b) (st.values s :: vs)) :
    (s ∉ lastReads → (setSignal readsOf st s w).runCount = st.runCount) ∧
    (s ∈ lastReads → (setSignal readsOf st s w).runCount = st.runCount + 1) ∧
    (s ∈ lastReads →
      (batchWrites readsOf (vs.map (fun v => (s, v))) st).runCount = st.runCount + 1 ∧
      (batchWrites readsOf (vs.map (fun v => (s, v))) st).pending = false) := by
  refine ⟨?_, ?_, ?_⟩
  · intro hnot
    unfold setSignal
    rw [if_neg hw]
    have : s ∉ ({ st with values := Function.update st.values s w } : CompSt).subs := by
      simpa [hsubs s] using hnot
    rw [if_neg this]
  · intro hin
    unfold setSignal notifyComputation
    rw [if_neg hw]
    have hsub : s ∈ ({ st with values := Function.update st.values s w } : CompSt).subs := by
      simpa [hsubs s] using hin
    rw [if_pos hsub]
    have : ¬ 0 < ({ st with values := Function.update st.values s w } : CompSt).depth := by
      simp [hdepth]
    rw [if_neg this]
    simp [runComputation]
  · intro hin
    unfold batchWrites
    set st1 : CompSt := { st with depth := st.depth + 1 } with hst1
    have hfold := foldl_setSignal_in_batch readsOf s vs st1
      (by simp [hst1]) (by simpa [hst1, hsubs s] using hin)
      (by simpa [hst1] using hchain)
    set st2 := (vs.map (fun v => (s, v))).foldl
      (fun acc w => setSignal readsOf acc w.1 w.2) st1 with hst2
    have hd2 : st2.depth = st.depth + 1 := by
      rw [hfold.2.2.1]
    have hp2 : st2.pending = true := hfold.2.2.2.mpr (Or.inr hvs)
    have hd3 : ({ st2 with depth := st2.depth - 1 } : CompSt).depth = 0 := by
      simp [hd2, hdepth]
    rw [if_pos hd3]
    unfold flushPending
    rw [if_pos (by simpa using hp2)]
    constructor
    · have hr2 : st2.runCount = st.runCount := by
        rw [hfold.1]
      simp only [runComputation]
      rw [← hst2]
      simp [hr2]
    · simp [runComputation]

/-- Witness for C1 at a concrete computation that reads signal `0`: a
value-changing write to unread signal `1` causes no re-run, one to read
signal `0` causes exactly one, and two batched writes to signal `0` coalesce
to one. -/
theorem dependency_precision_witness :
    (setSignal (fun _ => [0]) ⟨fun _ => 0, [0], 0, 0, false⟩ 1 5).runCount = 0 ∧
    (setSignal (fun _ => [0]) ⟨fun _ => 0, [0], 0, 0, false⟩ 0 5).runCount = 1 ∧
    (batchWrites (fun _ => [0]) ([5, 7].map (fun v => ((0 : SubId), v)))
      ⟨fun _ => 0, [0], 0, 0, false⟩).runCount = 1 := by
  have h1 := dependency_precision (fun _ => [0]) ⟨fun _ => 0, [0], 0, 0, false⟩ [0] 1 5 [5, 7]
    (fun d => Iff.rfl) rfl rfl (by decide) (by decide)
    (by norm_num [List.chain'_cons, List.chain'_singleton])
  have h0 := dependency_precision (fun _ => [0]) ⟨fun _ => 0, [0], 0, 0, false⟩ [0] 0 5 [5, 7]
    (fun d => Iff.rfl) rfl rfl (by decide) (by decide)
    (by norm_num [List.chain'_cons, List.chain'_singleton])
  exact ⟨h1.1 (by decide), h0.2.1 (by decide), (h0.2.2 (by decide)).1⟩

/-- C3: identity-gated notification.  `set` installs the resolved value and
returns it; it makes zero `notifySubscriber` calls when the resolved value is
`Object.is`-identical to the previous one, and otherwise notifies exactly the
current subscribers — each of them exactly once. -/
theorem identity_gated_notification {α : Type} [DecidableEq α] (sig : Sig α)
    (next : α ⊕ (α → α)) (c : SubId) (hnd : sig.subscribers.Nodup) :
    (sigSet sig next).2.1.value = (sigSet sig next).1 ∧
    ((sigSet sig next).1 = sig.value → (sigSet sig next).2.2 = []) ∧
    ((sigSet sig next).1 ≠ sig.value → (sigSet sig next).2.2 = sig.subscribers) ∧
    (sigSet sig next).2.2.count c
      = if (sigSet sig next).1 ≠ sig.value ∧ c ∈ sig.subscribers then 1 else 0 := by
  by_cases h : sigResolve next sig.value = sig.value
  · refine ⟨rfl, fun _ => ?_, fun hne => absurd h hne, ?_⟩
    · simp [sigSet, h]
    · simp [sigSet, h]
  · refine ⟨rfl, fun he => absurd he h, fun _ => ?_, ?_⟩
    · simp [sigSet, h]
    · by_cases hc : c ∈ sig.subscribers
      · rw [if_pos ⟨h, hc⟩]
        simpa [sigSet, h] using List.count_eq_one_of_mem hnd hc
      · rw [if_neg (fun hand => hc hand.2)]
        simpa [sigSet, h] using List.count_eq_zero_of_not_mem hc

/-- Witness for C3 at a two-subscriber integer signal: re-installing the
current value notifies nobody; an updater producing a different value
notifies both subscribers, each exactly once. -/
theorem identity_gated_notification_witness :
    (sigSet ⟨(0 : Int), [1, 2]⟩ (Sum.inl 0)).2.2 = [] ∧
    (sigSet ⟨(0 : Int), [1, 2]⟩ (Sum.inr (fun v => v + 1))).2.2 = [1, 2] ∧
    (sigSet ⟨(0 : Int), [1, 2]⟩ (Sum.inr (fun v => v + 1))).2.2.count 1 = 1 := by
  have ha := identity_gated_notification ⟨(0 : Int), [1, 2]⟩ (Sum.inl 0) 1 (by decide)
  have hb := identity_gated_notification ⟨(0 : Int), [1, 2]⟩
    (Sum.inr (fun v => v + 1)) 1 (by decide)
  refine ⟨ha.2.1 (by norm_num [sigSet, sigResolve]), hb.2.2.1 ?_, ?_⟩
  · show (0 : Int) + 1 ≠ 0
    norm_num
  · have := hb.2.2.2
    simpa [sigSet, sigResolve] using this

theorem foldl_trackDep_nil (reads : List SubId) :
    reads.foldl trackDep [] = ([] : CollStack) := by
  induction reads with
  | nil => rfl
  | cons r t ih => simpa [trackDep] using ih

theorem foldl_trackDep_cons (reads : List SubId) (c : List SubId) (rest : CollStack) :
    reads.foldl trackDep (c :: rest) = setInsertAll c reads :: rest := by
  induction reads generalizing c with
  | nil => rfl
  | cons r t ih => simpa [trackDep, setInsertAll] using ih (setInsert c r)

/-- C10: `untrack` suppresses only the innermost collector.  With exactly one
active collector, reads inside `untrack(fn)` register no dependencies
anywhere; with two or more collectors on the stack, those reads land in the
next-outer collector's working set (its previous entries plus the reads),
while the popped innermost collector is restored unchanged. -/
theorem untrack_pops_only_innermost (c inner outer : List SubId) (rest : CollStack)
    (reads : List SubId) (d : SubId) :
    untrackRun [c] reads = [c] ∧
    untrackRun (inner :: outer :: rest) reads = inner :: setInsertAll outer reads :: rest ∧
    (d ∈ setInsertAll outer reads ↔ d ∈ outer ∨ d ∈ reads) := by
  refine ⟨?_, ?_, mem_setInsertAll reads outer d⟩
  · show c :: reads.foldl trackDep [] = [c]
    rw [foldl_trackDep_nil]
  · show inner :: reads.foldl trackDep (outer :: rest) = _
    rw [foldl_trackDep_cons]

theorem setInsertAll_of_subset (l : List SubId) (acc : List SubId)
    (h : ∀ x ∈ l, x ∈ acc) : setInsertAll acc l = acc := by
  induction l generalizing acc with
  | nil => rfl
  | cons a t ih =>
    have ha : a ∈ acc := h a (List.mem_cons_self a t)
    show setInsertAll (setInsert acc a) t = acc
    rw [setInsert, if_pos ha]
    exact ih acc (fun x hx => h x (List.mem_cons_of_mem a hx))

theorem setInsertAll_append_of_disjoint (l : List SubId) (acc : List SubId)
    (hnd : l.Nodup) (hdisj : ∀ x ∈ l, x ∉ acc) : setInsertAll acc l = acc ++ l := by
  induction l generalizing acc with
  | nil => simp [setInsertAll]
  | cons a t ih =>
    have ha : a ∉ acc := hdisj a (List.mem_cons_self a t)
    show setInsertAll (setInsert acc a) t = acc ++ a :: t
    rw [setInsert, if_neg ha]
    rw [ih (acc ++ [a]) (List.Nodup.of_cons hnd)]
    · simp
    · intro x hx hmem
      rcases List.mem_append.mp hmem with hx' | hx'
      · exact hdisj x (List.mem_cons_of_mem a hx) hx'
      · have : x = a := List.mem_singleton.mp hx'
        subst this
        exact (List.nodup_cons.mp hnd).1 hx

theorem foldl_notifySub_depth_pos (subs : List SubId) (st : BSt) (hd : 0 < st.depth) :
    subs.foldl notifySub st = { st with pending := setInsertAll st.pending subs } := by
  induction subs generalizing st with
  | nil => simp [setInsertAll]
  | cons a t ih =>
    rw [List.foldl_cons]
    have h1 : notifySub st a = { st with pending := setInsert st.pending a } := by
      simp [notifySub, hd]
    rw [h1, ih _ (by simpa using hd)]
    rfl

theorem flushSubs_eq (st : BSt) :
    flushSubs st = { st with log := st.log ++ st.pending, pending := [] } := by
  by_cases h : st.pending = []
  · rw [flushSubs, dif_pos h]
    cases st
    simp_all
  · rw [flushSubs, dif_neg h, flushSubs, dif_pos rfl]

theorem runB_in_batch (subs : List SubId) (hnd : subs.Nodup) (p : BProg) :
    ∀ st : BSt, 0 < st.depth → (st.pending = [] ∨ st.pending = subs) →
    (runB subs p st).log = st.log ∧
    (runB subs p st).depth = st.depth ∧
    (runB subs p st).value = endVal st.value p ∧
    ((runB subs p st).pending = st.pending ∨ (runB subs p st).pending = subs) ∧
    (allChangingB st.value p = true → hasWriteB p = true →
      (runB subs p st).pending = subs) := by
  induction p with
  | write v =>
    intro st hd hp
    by_cases hv : v = st.value
    · refine ⟨by simp [runB, hv], by simp [runB, hv], by simp [runB, hv, endVal],
        Or.inl (by simp [runB, hv]), fun hch _ => ?_⟩
      exfalso
      simp [allChangingB, hv] at hch
    · have hrw : runB subs (.write v) st
          = { st with value := v, pending := setInsertAll st.pending subs } := by
        show (if v = st.value then _ else subs.foldl notifySub _) = _
        rw [if_neg hv, foldl_notifySub_depth_pos subs _ (by simpa using hd)]
      have hpend : setInsertAll st.pending subs = subs := by
        rcases hp with hp | hp
        · rw [hp]
          simpa using setInsertAll_append_of_disjoint subs [] hnd (by simp)
        · rw [hp]
          exact setInsertAll_of_subset subs subs (fun x hx => hx)
      rw [hrw]
      exact ⟨rfl, rfl, by simp [endVal], Or.inr (by simp [hpend]),
        fun _ _ => by simp [hpend]⟩
  | seq p q ihp ihq =>
    intro st hd hp
    have h1 := ihp st hd hp
    have hd1 : 0 < (runB subs p st).depth := by rw [h1.2.1]; exact hd
    have hp1 : (runB subs p st).pending = [] ∨ (runB subs p st).pending = subs := by
      rcases h1.2.2.2.1 with h | h
      · rw [h]; exact hp
      · exact Or.inr h
    have h2 := ihq (runB subs p st) hd1 hp1
    refine ⟨by simp [runB, h2.1, h1.1], by simp [runB, h2.2.1, h1.2.1],
      by simp [runB, h2.2.2.1, h1.2.2.1, endVal], ?_, ?_⟩
    · rcases h2.2.2.2.1 with h | h
      · rcases h1.2.2.2.1 with h' | h'
        · refine Or.inl ?_
          show (runB subs q (runB subs p st)).pending = st.pending
          rw [h, h']
        · refine Or.inr ?_
          show (runB subs q (runB subs p st)).pending = subs
          rw [h, h']
      · exact Or.inr h
    · intro hch hw
      have hach : allChangingB st.value p = true
          ∧ allChangingB (endVal st.value p) q = true := by
        simpa [allChangingB, Bool.and_eq_true] using hch
      have hwpq : hasWriteB p = true ∨ hasWriteB q = true := by
        simpa [hasWriteB, Bool.or_eq_true] using hw
      rcases hwpq with hwp | hwq
      · have hr1 : (runB subs p st).pending = subs := h1.2.2.2.2 hach.1 hwp
        show (runB subs q (runB subs p st)).pending = subs
        rcases h2.2.2.2.1 with h | h
        · rw [h, hr1]
        · exact h
      · have achq' : allChangingB (runB subs p st).value q = true := by
          rw [h1.2.2.1]
          exact hach.2
        exact h2.2.2.2.2 achq' hwq
  | batch p ihp =>
    intro st hd hp
    have h1 := ihp { st with depth := st.depth + 1 } (by simp) (by simpa using hp)
    have hd2 : (runB subs p { st with depth := st.depth + 1 }).depth = st.depth + 1 := by
      simpa using h1.2.1
    have hrw : runB subs (.batch p) st
        = if ({ runB subs p { st with depth := st.depth + 1 } with
              depth := (runB subs p { st with depth := st.depth + 1 }).depth - 1 } : BSt).depth
            = 0 then
            flushSubs { runB subs p { st with depth := st.depth + 1 } with
              depth := (runB subs p { st with depth := st.depth + 1 }).depth - 1 }
          else
            { runB subs p { st with depth := st.depth + 1 } with
              depth := (runB subs p { st with depth := st.depth + 1 }).depth - 1 } := rfl
    have hne : ¬ (({ runB subs p { st with depth := st.depth + 1 } with
        depth := (runB subs p { st with depth := st.depth + 1 }).depth - 1 } : BSt).depth
          = 0) := by
      simp only [hd2]
      omega
    rw [hrw, if_neg hne]
    refine ⟨by simpa using h1.1, by simp [hd2],
      by simpa [endVal] using h1.2.2.1, by simpa using h1.2.2.2.1, ?_⟩
    intro hch hw
    have hch' : allChangingB
        ({ st with depth := st.depth + 1 } : BSt).value p = true := by
      simpa [allChangingB] using hch
    have hw' : hasWriteB p = true := by
      simpa [hasWriteB] using hw
    simpa using h1.2.2.2.2 hch' hw'
  | skip =>
    intro st hd hp
    exact ⟨rfl, rfl, rfl, Or.inl rfl, fun _ hw => by simp [hasWriteB] at hw⟩

/-- C4: batch coalescing with outermost-only flush.  For any program of
value-changing writes to one signal inside a single batch (nested batches
allowed), no subscriber callback is invoked while the batch body runs; at
the outermost exit the flush invokes exactly the signal's subscribers —
each exactly once, regardless of how many writes occurred — and the flush
loop leaves the pending set empty. -/
theorem batch_coalescing (subs : List SubId) (p : BProg) (v0 : Int) (c : SubId)
    (hnd : subs.Nodup) (hch : allChangingB v0 p = true) (hw : hasWriteB p = true) :
    (runB subs p ⟨v0, 1, [], []⟩).log = [] ∧
    (runB subs (.batch p) ⟨v0, 0, [], []⟩).log = subs ∧
    (runB subs (.batch p) ⟨v0, 0, [], []⟩).pending = [] ∧
    (c ∈ subs → (runB subs (.batch p) ⟨v0, 0, [], []⟩).log.count c = 1) := by
  have hbody := runB_in_batch subs hnd p ⟨v0, 1, [], []⟩ (by norm_num) (Or.inl rfl)
  set st2 := runB subs p (⟨v0, 1, [], []⟩ : BSt) with hst2
  have hd2 : st2.depth = 1 := hbody.2.1
  have hlog2 : st2.log = [] := hbody.1
  have hpend2 : st2.pending = subs := hbody.2.2.2.2 hch hw
  have hrun : runB subs (.batch p) (⟨v0, 0, [], []⟩ : BSt)
      = flushSubs { st2 with depth := st2.depth - 1 } := by
    show (if ({ st2 with depth := st2.depth - 1 } : BSt).depth = 0 then
        flushSubs { st2 with depth := st2.depth - 1 }
      else { st2 with depth := st2.depth - 1 }) = _
    rw [if_pos (by simp [hd2])]
  rw [hrun, flushSubs_eq]
  refine ⟨hlog2, by simp [hlog2, hpend2], by simp, fun hc => ?_⟩
  simp only [hlog2, hpend2]
  simpa using List.count_eq_one_of_mem hnd hc

/-- Witness for C4 at a one-subscriber signal: two value-changing writes in
one batch invoke nothing during the body and the single subscriber exactly
once at the outermost exit. -/
theorem batch_coalescing_witness :
    (runB [7] (.seq (.write 2) (.write 3)) ⟨1, 1, [], []⟩).log = [] ∧
    (runB [7] (.batch (.seq (.write 2) (.write 3))) ⟨1, 0, [], []⟩).log = [7] ∧
    (runB [7] (.batch (.seq (.write 2) (.write 3))) ⟨1, 0, [], []⟩).pending = [] ∧
    (runB [7] (.batch (.seq (.write 2) (.write 3))) ⟨1, 0, [], []⟩).log.count 7 = 1 := by
  have h := batch_coalescing [7] (.seq (.write 2) (.write 3)) 1 7
    (by decide) (by decide) (by decide)
  exact ⟨h.1, h.2.1, h.2.2.1, h.2.2.2 (by decide)⟩

theorem applyN_scheduleFlag (k : Nat) (e : Eff) (hd : e.disposed = false)
    (hr : e.running = true) :
    applyN scheduleFlag k e = if k = 0 then e else { e with scheduled := true } := by
  induction k generalizing e with
  | zero => rfl
  | succ n ih =>
    have hf : scheduleFlag e = { e with scheduled := true } := by
      simp [scheduleFlag, hd, hr]
    show applyN scheduleFlag n (scheduleFlag e) = _
    rw [hf, ih _ (by simpa using hd) (by simpa using hr)]
    by_cases hn : n = 0
    · simp [hn]
    · simp [hn]

/-- C5: effect re-entrancy coalescing.  If the effect is disposed,
`schedule`/`start` is a no-op.  For an idle effect, a run during which one
or more dependency notifications arrive is followed by exactly one
additional re-run immediately after it (total two runs, `scheduled` and
`running` cleared), however many notifications arrived; a run during which
no notification arrives stays a single run. -/
theorem effect_reentrancy_coalescing (e : Eff) (k : Nat) (notifs : List Nat) :
    (e.disposed = true → scheduleEff e notifs = e) ∧
    (e.disposed = false → e.running = false → 1 ≤ k →
      (scheduleEff e [k]).runs = e.runs + 2 ∧
      (scheduleEff e [k]).scheduled = false ∧
      (scheduleEff e [k]).running = false) ∧
    (e.disposed = false → e.running = false →
      (scheduleEff e [0]).runs = e.runs + 1 ∧
      (scheduleEff e [0]).scheduled = false) := by
  refine ⟨fun hd => by simp [scheduleEff, hd], fun hd hr hk => ?_, fun hd hr => ?_⟩
  · have hk0 : ¬ (k = 0) := by omega
    have ha := applyN_scheduleFlag k
      { e with running := true, scheduled := false, runs := e.runs + 1 }
      (by simpa using hd) rfl
    rw [if_neg hk0] at ha
    simp only [hd] at ha
    simp [scheduleEff, executeEff, hd, hr, ha]
  · simp [scheduleEff, executeEff, hd, hr, applyN]

/-- Witness for C5: a disposed effect ignores scheduling; an idle effect
receiving three mid-run notifications runs exactly twice and ends idle; an
idle effect receiving none runs exactly once. -/
theorem effect_reentrancy_coalescing_witness :
    scheduleEff ⟨false, false, true, 5⟩ [2] = ⟨false, false, true, 5⟩ ∧
    (scheduleEff ⟨false, false, false, 0⟩ [3]).runs = 2 ∧
    (scheduleEff ⟨false, false, false, 0⟩ [3]).scheduled = false ∧
    (scheduleEff ⟨false, false, false, 0⟩ [3]).running = false ∧
    (scheduleEff ⟨false, false, false, 0⟩ [0]).runs = 1 := by
  have ha := effect_reentrancy_coalescing ⟨false, false, true, 5⟩ 2 [2]
  have hb := effect_reentrancy_coalescing ⟨false, false, false, 0⟩ 3 [3]
  have hbi := hb.2.1 rfl rfl (by norm_num)
  exact ⟨ha.1 rfl, hbi.1, hbi.2.1, hbi.2.2, (hb.2.2 rfl rfl).1⟩

/-- C6 counterexample: signal `x = 1`, memo `2*x` read once (cached `2`),
then a batch is opened and `x` is set to `5`.  A read of the memo while the
batch is still open returns the stale cached `2`, although the compute
function over the dependency's current value gives `10` — refuting the
claim that every read, including one made while a batch is open after a
dependency changed, returns the compute result over current values. -/
theorem memo_stale_read_in_batch_cex :
    (memoGetM dbl 9 []
      (setXM dbl (batchEnterM (memoGetM dbl 9 [] ⟨1, false, 0, false, 0, false⟩).2.1) 5)).1
      = 2 ∧
    dbl (setXM dbl
      (batchEnterM (memoGetM dbl 9 [] ⟨1, false, 0, false, 0, false⟩).2.1) 5).x = 10 := by
  decide

/-- C6 amended: `get()` registers the memo with the active collector and, if
the memo has never computed, synchronously recomputes before returning; once
a value is cached, `get()` returns it without recomputing.  Outside a batch
the cache is kept fresh because a value-changing dependency write recomputes
the memo push-style at once; inside an open batch such a write only queues
the recompute, a read returns the (possibly stale) cached value, and the
outermost batch exit flushes the queued recompute, restoring freshness. -/
theorem memo_fresh_read_semantics (compute : Int → Int) (memoId : SubId)
    (cs : CollStack) (st : MSt) (v : Int) :
    ((memoGetM compute memoId cs st).2.2 = trackDep cs memoId) ∧
    (st.hasValue = false → (memoGetM compute memoId cs st).1 = compute st.x) ∧
    (st.hasValue = true → (memoGetM compute memoId cs st).1 = st.value ∧
      (memoGetM compute memoId cs st).2.1 = st) ∧
    (st.subbed = true → st.depth = 0 → v ≠ st.x →
      (setXM compute st v).value = compute v ∧
      (setXM compute st v).hasValue = true) ∧
    (st.subbed = true → 0 < st.depth → v ≠ st.x →
      (setXM compute st v).value = st.value ∧
      (setXM compute st v).hasValue = st.hasValue ∧
      (setXM compute st v).pendingCb = true) ∧
    (st.depth = 1 → st.pendingCb = true →
      (batchExitM compute st).value = compute st.x ∧
      (batchExitM compute st).hasValue = true ∧
      (batchExitM compute st).pendingCb = false) := by
  refine ⟨?_, fun hnv => ?_, fun hv => ?_, fun hs hd hne => ?_, fun hs hd hne => ?_,
    fun hd hp => ?_⟩
  · by_cases h : st.hasValue <;> simp [memoGetM, h]
  · simp [memoGetM, hnv, recomputeM]
  · simp [memoGetM, hv]
  · have hd' : ¬ (0 < ({ st with x := v } : MSt).depth) := by simp [hd]
    constructor <;> simp [setXM, hne, hs, hd', recomputeM]
  · have hd' : 0 < ({ st with x := v } : MSt).depth := by simpa using hd
    refine ⟨?_, ?_, ?_⟩ <;> simp [setXM, hne, hs, hd']
  · refine ⟨?_, ?_, ?_⟩ <;> simp [batchExitM, hd, hp, recomputeM]

/-- Witness for C6's amended theorem: concrete doubling memo over a signal
holding `1`, read fresh when uncached, cached thereafter, eagerly
recomputed by an unbatched write of `5`, queued (and stale) under an open
batch, and fresh again after the outermost batch exit. -/
theorem memo_fresh_read_semantics_witness :
    (memoGetM dbl 9 [[]] ⟨1, false, 0, false, 0, false⟩).1 = 2 ∧
    (memoGetM dbl 9 [[]] ⟨1, true, 2, true, 0, false⟩).1 = 2 ∧
    (setXM dbl ⟨1, true, 2, true, 0, false⟩ 5).value = 10 ∧
    (setXM dbl ⟨1, true, 2, true, 1, false⟩ 5).value = 2 ∧
    (setXM dbl ⟨1, true, 2, true, 1, false⟩ 5).pendingCb = true ∧
    (batchExitM dbl ⟨5, true, 2, true, 1, true⟩).value = 10 := by
  have h1 := memo_fresh_read_semantics dbl 9 [[]] ⟨1, false, 0, false, 0, false⟩ 5
  have h2 := memo_fresh_read_semantics dbl 9 [[]] ⟨1, true, 2, true, 0, false⟩ 5
  have h3 := memo_fresh_read_semantics dbl 9 [[]] ⟨1, true, 2, true, 1, false⟩ 5
  have h4 := memo_fresh_read_semantics dbl 9 [[]] ⟨5, true, 2, true, 1, true⟩ 5
  refine ⟨h1.2.1 rfl, (h2.2.2.1 rfl).1, ?_, ?_, ?_, ?_⟩
  · exact (h2.2.2.2.1 rfl rfl (by decide)).1
  · exact (h3.2.2.2.2.1 rfl (by decide) (by decide)).1
  · exact (h3.2.2.2.2.1 rfl (by decide) (by decide)).2.2
  · exact (h4.2.2.2.2.2 rfl rfl).1

/-- C7: keyed reorder with zero re-synthesis.  For any three distinct keys
`a, b, c` with projected items `Pa, Pb, Pc`, updating the keyed projection
from key order `[a, b, c]` to `[c, a, b]` (source items being their keys, no
update function) yields exactly the original projected items reordered to
`[Pc, Pa, Pb]` via forward-scan splices, with the map function invoked zero
times. -/
theorem keyed_reorder_preserves_items {K P : Type} [DecidableEq K] [Inhabited P]
    (a b c : K) (Pa Pb Pc : P) (f : K → Nat → P)
    (hab : a ≠ b) (hac : a ≠ c) (hbc : b ≠ c) :
    reconcileKeyed (fun s _ => s) f none [c, a, b] [a, b, c] [Pa, Pb, Pc]
      = ([c, a, b], [Pc, Pa, Pb], 0) := by
  simp [reconcileKeyed, projLoop, scanForward, scanList, removeAt, insertAt,
    applyUpdate, hab, hac, hbc, Ne.symm hac, Ne.symm hbc]

/-- Witness for C7 at concrete keys `0,1,2` and items `10,11,12`: reorder to
`[2,0,1]` moves the items to `[12,10,11]` with zero map calls. -/
theorem keyed_reorder_preserves_items_witness :
    reconcileKeyed (fun s _ => s) (fun _ _ => (99 : Nat)) none
      [2, 0, 1] [0, 1, 2] [10, 11, 12] = ([2, 0, 1], [12, 10, 11], 0) :=
  keyed_reorder_preserves_items 0 1 2 10 11 12 (fun _ _ => 99)
    (by decide) (by decide) (by decide)

/-- C8: immutable-store mutation atomicity.  On a store created in immutable
mode, the `set` and `deleteProperty` traps — at the root or any nested view
path, for any property and value — throw the cannot-mutate-immutable-store
error, and the store state is returned exactly as it was: same root
reference, same root value, no notification fired. -/
theorem immutable_store_write_rejected (st : StoreSt) (path : List String)
    (prop : String) (v : JVal) (freshRef : Nat) :
    proxySetTrap false st path prop v freshRef
      = (Except.error immutableStoreError, st) ∧
    proxyDeleteTrap false st path prop freshRef
      = (Except.error immutableStoreError, st) :=
  ⟨rfl, rfl⟩

theorem lookup_overwrite_map_ne (k k' : String) (v : JVal)
    (h : k' ≠ k) (fs : List (String × JVal)) :
    (fs.map (fun kv => if kv.1 = k then (k, v) else kv)).lookup k' = fs.lookup k' := by
  induction fs with
  | nil => rfl
  | cons kv t ih =>
    obtain ⟨a, b⟩ := kv
    rw [List.map_cons]
    by_cases hk : a = k
    · subst hk
      rw [if_pos rfl]
      simp [List.lookup, beq_eq_false_iff_ne.mpr h, ih]
    · rw [if_neg hk]
      by_cases hk' : k' = a
      · subst hk'
        simp [List.lookup]
      · simp [List.lookup, beq_eq_false_iff_ne.mpr hk', ih]

theorem lookup_overwrite_map_eq (k : String) (v : JVal) (fs : List (String × JVal)) :
    (fs.map (fun kv => if kv.1 = k then (k, v) else kv)).lookup k
      = if (fs.map Prod.fst).contains k then some v else none := by
  induction fs with
  | nil => rfl
  | cons kv t ih =>
    obtain ⟨a, b⟩ := kv
    rw [List.map_cons]
    by_cases hk : a = k
    · subst hk
      rw [if_pos rfl]
      simp [List.lookup]
    · rw [if_neg hk]
      have hk' : k ≠ a := fun hh => hk hh.symm
      rw [List.map_cons, List.contains_cons, beq_eq_false_iff_ne.mpr hk', Bool.false_or]
      simp [List.lookup, beq_eq_false_iff_ne.mpr hk', ih]

theorem lookup_append_pair (l₁ l₂ : List (String × JVal)) (x : String) :
    (l₁ ++ l₂).lookup x
      = match l₁.lookup x with
        | some v => some v
        | none => l₂.lookup x := by
  induction l₁ with
  | nil => rfl
  | cons kv t ih =>
    obtain ⟨a, b⟩ := kv
    by_cases ha : x = a
    · subst ha
      simp [List.lookup]
    · simp [List.lookup, beq_eq_false_iff_ne.mpr ha, ih]

theorem lookup_eq_none_of_not_contains (fs : List (String × JVal)) (k : String)
    (h : ¬ (fs.map Prod.fst).contains k = true) : fs.lookup k = none := by
  induction fs with
  | nil => rfl
  | cons kv t ih =>
    obtain ⟨a, b⟩ := kv
    simp only [List.map_cons, List.contains_cons, Bool.or_eq_true] at h
    push_neg at h
    obtain ⟨h1, h2⟩ := h
    have h1' : (k == a) = false := by
      simpa using h1
    simp only [List.lookup, h1']
    exact ih h2

theorem lookup_setField (fs : List (String × JVal)) (k k' : String) (v : JVal) :
    (setField fs k v).lookup k' = if k' = k then some v else fs.lookup k' := by
  unfold setField
  by_cases hc : (fs.map Prod.fst).contains k
  · rw [if_pos hc]
    by_cases hk : k' = k
    · subst hk
      rw [lookup_overwrite_map_eq, if_pos hc, if_pos rfl]
    · rw [lookup_overwrite_map_ne k k' v hk, if_neg hk]
  · rw [if_neg hc, lookup_append_pair]
    by_cases hk : k' = k
    · subst hk
      rw [lookup_eq_none_of_not_contains fs k' hc]
      simp [List.lookup]
    · rw [if_neg hk]
      cases h : fs.lookup k' with
      | some w => rfl
      | none => simp [List.lookup, beq_eq_false_iff_ne.mpr hk]

theorem lookup_spreadMerge_none (r : List (String × JVal)) (p : List (String × JVal))
    (k : String) (h : r.lookup k = none) :
    (spreadMerge p r).lookup k = p.lookup k := by
  induction r generalizing p with
  | nil => rfl
  | cons kv t ih =>
    obtain ⟨a, b⟩ := kv
    have hk : (k == a) = false := by
      cases hh : (k == a) with
      | false => rfl
      | true => simp [List.lookup, hh] at h
    have ht : t.lookup k = none := by
      simpa [List.lookup, hk] using h
    show (spreadMerge (setField p a b) t).lookup k = _
    rw [ih (setField p a b) ht, lookup_setField,
      if_neg (beq_eq_false_iff_ne.mp hk)]

theorem lookup_spreadMerge_some (r : List (String × JVal)) (p : List (String × JVal))
    (k : String) (v : JVal) (hnd : (r.map Prod.fst).Nodup)
    (h : r.lookup k = some v) :
    (spreadMerge p r).lookup k = some v := by
  induction r generalizing p with
  | nil => simp [List.lookup] at h
  | cons kv t ih =>
    obtain ⟨a, b⟩ := kv
    have hnd' : (a :: t.map Prod.fst).Nodup := by
      simpa only [List.map_cons] using hnd
    by_cases hk : k = a
    · subst hk
      have hv : b = v := by
        simpa [List.lookup] using h
      have hnotin : ¬ ((t.map Prod.fst).contains k = true) := by
        have hmem := (List.nodup_cons.mp hnd').1
        simpa using hmem
      have ht : t.lookup k = none := lookup_eq_none_of_not_contains t k hnotin
      show (spreadMerge (setField p k b) t).lookup k = _
      rw [lookup_spreadMerge_none t _ k ht, lookup_setField, if_pos rfl, hv]
    · have ht : t.lookup k = some v := by
        simpa [List.lookup, beq_eq_false_iff_ne.mpr hk] using h
      show (spreadMerge (setField p a b) t).lookup k = _
      exact ih (setField p a b) (List.Nodup.of_cons hnd') ht

/-- C9: the `createStore` setter contract.  For an object-like previous root
and an argument (value, patch, or updater) resolving to an object-like
value, the setter installs as the new root the top-level shallow merge of
the two: keys absent from the patch keep their previous bindings, keys
present in the patch take the patch's binding wholesale (no deep merge);
the new root is a fresh object whose reference differs from the previous
root, so the signal's identity check notifies every subscriber; and the
resolved new root is what the setter returns and installs. -/
theorem setStore_shallow_merge (sig : SigR) (next : RVal ⊕ (RVal → RVal))
    (freshRef : Nat) (pf rf : List (String × JVal)) (k : String) (v : JVal)
    (hprev : sig.value.val = JVal.obj pf)
    (hres : (resolveStoreArg next sig.value).val = JVal.obj rf)
    (hfresh : freshRef ≠ sig.value.ref)
    (hrnd : (rf.map Prod.fst).Nodup) :
    (setStoreF sig next freshRef).1 = ⟨freshRef, JVal.obj (spreadMerge pf rf)⟩ ∧
    (setStoreF sig next freshRef).2.1.value = (setStoreF sig next freshRef).1 ∧
    (setStoreF sig next freshRef).1.ref ≠ sig.value.ref ∧
    (setStoreF sig next freshRef).2.2 = sig.subscribers ∧
    (rf.lookup k = none → (spreadMerge pf rf).lookup k = pf.lookup k) ∧
    (rf.lookup k = some v → (spreadMerge pf rf).lookup k = some v) := by
  have hobj : (isObjLike sig.value.val && isObjLike (resolveStoreArg next sig.value).val)
      = true := by
    rw [hprev, hres]
    rfl
  have hmerged : setStoreF sig next freshRef
      = sigSetR sig ⟨freshRef, JVal.obj (spreadMerge pf rf)⟩ := by
    simp only [setStoreF]
    rw [if_pos hobj, hprev, hres]
    rfl
  have hnotis : jsIs sig.value ⟨freshRef, JVal.obj (spreadMerge pf rf)⟩ = false := by
    unfold jsIs
    rw [hprev]
    simpa using fun h => hfresh h.symm
  refine ⟨by rw [hmerged]; rfl, by rw [hmerged]; rfl, ?_, ?_,
    fun h => lookup_spreadMerge_none rf pf k h,
    fun h => lookup_spreadMerge_some rf pf k v hrnd h⟩
  · rw [hmerged]
    show freshRef ≠ sig.value.ref
    exact hfresh
  · rw [hmerged]
    unfold sigSetR
    rw [hnotis]
    rfl

/-- Witness for C9: previous root `{count: 0, name: 7}` with one subscriber,
patched with `{count: 1}`: the installed root is the fresh-reference shallow
merge `{count: 1, name: 7}`, the subscriber is notified, the untouched key
keeps its binding and the patched key is overridden. -/
theorem setStore_shallow_merge_witness :
    (setStoreF ⟨⟨0, JVal.obj [("count", JVal.prim 0), ("name", JVal.prim 7)]⟩, [3]⟩
        (Sum.inl ⟨5, JVal.obj [("count", JVal.prim 1)]⟩) 1).1
      = ⟨1, JVal.obj (spreadMerge [("count", JVal.prim 0), ("name", JVal.prim 7)]
          [("count", JVal.prim 1)])⟩ ∧
    (setStoreF ⟨⟨0, JVal.obj [("count", JVal.prim 0), ("name", JVal.prim 7)]⟩, [3]⟩
        (Sum.inl ⟨5, JVal.obj [("count", JVal.prim 1)]⟩) 1).2.2 = [3] ∧
    (spreadMerge [("count", JVal.prim 0), ("name", JVal.prim 7)]
        [("count", JVal.prim 1)]).lookup "name" = some (JVal.prim 7) ∧
    (spreadMerge [("count", JVal.prim 0), ("name", JVal.prim 7)]
        [("count", JVal.prim 1)]).lookup "count" = some (JVal.prim 1) := by
  have ha := setStore_shallow_merge
    ⟨⟨0, JVal.obj [("count", JVal.prim 0), ("name", JVal.prim 7)]⟩, [3]⟩
    (Sum.inl ⟨5, JVal.obj [("count", JVal.prim 1)]⟩) 1
    [("count", JVal.prim 0), ("name", JVal.prim 7)] [("count", JVal.prim 1)]
    "name" (JVal.prim 7) rfl rfl (by decide) (by decide)
  have hb := setStore_shallow_merge
    ⟨⟨0, JVal.obj [("count", JVal.prim 0), ("name", JVal.prim 7)]⟩, [3]⟩
    (Sum.inl ⟨5, JVal.obj [("count", JVal.prim 1)]⟩) 1
    [("count", JVal.prim 0), ("name", JVal.prim 7)] [("count", JVal.prim 1)]
    "count" (JVal.prim 1) rfl rfl (by decide) (by decide)
  exact ⟨ha.1, ha.2.2.2.1, ha.2.2.2.2.1 rfl, hb.2.2.2.2.2 rfl⟩

end Reactive
